import Mathlib

/-!
Shallow embedding of `gamble/models/cards.py`: the Card / Hand / Deck model
of the Vermor/gamble repository, together with theorems checking the
natural-language specification against it.

Conventions of the embedding:
* Python `SimpleNamespace` enum bags (`Suit`, `Value`, `Rank`) become closed
  inductive types carrying the same numeric attributes (`val`, `char`, ...).
* Python lists become Lean `List`s; `list.pop()` (pop from the tail) is
  `popLast`; Python `set(xs)` is modelled by `xs.dedup` (the list of distinct
  elements) and, on the specification side, by `xs.toFinset`.
* The mutable `Deck` object becomes a `Deck` record threaded explicitly;
  `random.shuffle` becomes an arbitrary caller-supplied function on the card
  list (the specification never depends on the permutation chosen).
* A Python exception escaping an operation is modelled by an explicit error
  result (`DrawResult.err`, `Option.none`), paired with the state as mutated
  up to the point the exception was raised.
-/

namespace Gamble

/-- The four suits of `Card.Suits` (`cards.py`), as a closed enum. -/
inductive SuitT
  | spades
  | clubs
  | diamonds
  | hearts
deriving DecidableEq, Fintype, Inhabited, Repr

/-- The `value` attribute of each `Suit` namespace object (0..3). -/
def SuitT.val : SuitT → Nat
  | .spades => 0
  | .clubs => 1
  | .diamonds => 2
  | .hearts => 3

/-- The `char` attribute of each `Suit` namespace object. -/
def SuitT.char : SuitT → Char
  | .spades => 'S'
  | .clubs => 'C'
  | .diamonds => 'D'
  | .hearts => 'H'

/-- The `color` attribute of each `Suit` namespace object. -/
def SuitT.color : SuitT → Nat
  | .spades => 0
  | .clubs => 0
  | .diamonds => 1
  | .hearts => 1

/-- The thirteen card values of `Card.Values` (`cards.py`). -/
inductive ValueT
  | ace
  | two
  | three
  | four
  | five
  | six
  | seven
  | eight
  | nine
  | ten
  | jack
  | queen
  | king
deriving DecidableEq, Fintype, Inhabited, Repr

/-- The `value` attribute of each `Value` namespace object (ace = 1). -/
def ValueT.val : ValueT → Nat
  | .ace => 1
  | .two => 2
  | .three => 3
  | .four => 4
  | .five => 5
  | .six => 6
  | .seven => 7
  | .eight => 8
  | .nine => 9
  | .ten => 10
  | .jack => 11
  | .queen => 12
  | .king => 13

/-- The `char` attribute of each `Value` namespace object. -/
def ValueT.char : ValueT → Char
  | .ace => 'A'
  | .two => '2'
  | .three => '3'
  | .four => '4'
  | .five => '5'
  | .six => '6'
  | .seven => '7'
  | .eight => '8'
  | .nine => '9'
  | .ten => 'T'
  | .jack => 'J'
  | .queen => 'Q'
  | .king => 'K'

/-- `Card.Suits.all()`: all suits sorted by their `value` attribute. -/
def Suits.all : List SuitT := [.spades, .clubs, .diamonds, .hearts]

/-- `Card.Values.all()`: all values sorted by their `value` attribute. -/
def Values.all : List ValueT :=
  [.ace, .two, .three, .four, .five, .six, .seven, .eight, .nine, .ten,
   .jack, .queen, .king]

/-- The `Card` class: an immutable (value, suit) pair. -/
structure Card where
  value : ValueT
  suit : SuitT
deriving DecidableEq, Fintype, Inhabited, Repr

/-- `Card.__lt__`: compares the numeric value strength only. -/
def Card.lt (a b : Card) : Bool := a.value.val < b.value.val

/-- `Card.__gt__`: compares the numeric value strength only. -/
def Card.gt (a b : Card) : Bool := a.value.val > b.value.val

/-- `Card.__eq__`: both the suit and the value must match. -/
def Card.eqb (a b : Card) : Bool := a.suit == b.suit && a.value == b.value

/-- `Card.__le__`: `self < other or self == other`. -/
def Card.le (a b : Card) : Bool := Card.lt a b || Card.eqb a b

/-- `Card.__ge__`: `self > other or self == other`. -/
def Card.ge (a b : Card) : Bool := Card.gt a b || Card.eqb a b

/-- Lookup in `Card.Values.dict()` by (already uppercased) character. -/
def charToValue (c : Char) : Option ValueT :=
  (Values.all).find? (fun v => v.char == c)

/-- Lookup in `Card.Suits.dict()` by (already uppercased) character. -/
def charToSuit (c : Char) : Option SuitT :=
  (Suits.all).find? (fun s => s.char == c)

/-- `Card.get`: parse a two-character text code (case-insensitive); the
length is checked first, then the value character, then the suit character.
`none` models the `InvalidCard` exception. -/
def Card.get (text : List Char) : Option Card :=
  if text.length = 2 then
    match text.map Char.toUpper with
    | [value_char, suit_char] =>
      match charToValue value_char, charToSuit suit_char with
      | some v, some s => some ⟨v, s⟩
      | _, _ => none
    | _ => none
  else
    none

/-- The letter-code display form of a card: value code then suit letter
code (the spec's round-trip property uses this form instead of the glyph). -/
def Card.letterCode (c : Card) : List Char := [c.value.char, c.suit.char]

/-- The nine `Hand.Ranks` namespace objects. -/
inductive RankT
  | straight_flush
  | four_of_a_kind
  | full_house
  | flush
  | straight
  | three_of_a_kind
  | two_pair
  | pair
  | high_card
deriving DecidableEq, Repr

/-- The `value` attribute of each `Rank` namespace object (strength 0..8). -/
def RankT.val : RankT → Nat
  | .straight_flush => 8
  | .four_of_a_kind => 7
  | .full_house => 6
  | .flush => 5
  | .straight => 4
  | .three_of_a_kind => 3
  | .two_pair => 2
  | .pair => 1
  | .high_card => 0

/-- The `Hand` class: holds the card list (`self.cards`). -/
structure Hand where
  cards : List Card
deriving DecidableEq, Repr

/-- The `Hand` constructor: `self.cards = sorted(self._cards)`, ascending
by value strength (Python `sorted` uses `Card.__lt__`). -/
def Hand.ofCards (cs : List Card) : Hand :=
  ⟨cs.insertionSort (fun a b => a.value.val ≤ b.value.val)⟩

/-- `self.size = len(self.cards)`. -/
def Hand.size (h : Hand) : Nat := h.cards.length

/-- The numeric values of the cards of the hand. -/
def Hand.values (h : Hand) : List Nat := h.cards.map fun c => c.value.val

/-- `self.value_counts[v]`: how many cards of the hand have value `v`. -/
def Hand.countVal (h : Hand) (v : Nat) : Nat := h.values.count v

/-- `self.value_counts.values()`: the multiplicity of each distinct value,
in order of first occurrence (`Counter` preserves insertion order). -/
def Hand.groupSizes (h : Hand) : List Nat :=
  h.values.dedup.map h.countVal

instance : IsTotal Nat fun a b => b ≤ a := ⟨fun a b => le_total b a⟩

instance : IsTrans Nat fun a b => b ≤ a := ⟨fun _ _ _ h1 h2 => le_trans h2 h1⟩

/-- `Hand._vals`: the value-group sizes sorted in descending order
(`sorted(..., reverse=True)`). -/
def Hand.vals (h : Hand) : List Nat :=
  h.groupSizes.insertionSort fun a b => b ≤ a

/-- `Hand.is_four_of_a_kind`: `self._vals[0] == 4`. -/
def Hand.is_four_of_a_kind (h : Hand) : Bool := h.vals.headI == 4

/-- `Hand.is_full_house`: `self._vals[0:2] == [3, 2]`. -/
def Hand.is_full_house (h : Hand) : Bool := h.vals.take 2 == [3, 2]

/-- `Hand.is_flush`: the set of suit values has exactly one element. -/
def Hand.is_flush (h : Hand) : Bool :=
  (h.cards.map fun c => c.suit.val).dedup.length == 1

/-- The inner `check` of `Hand.is_straight`:
`max(value_set) - min(value_set) == size - 1 and len(value_set) == size`.
The set is modelled by the list of its distinct elements. -/
def straightCheck (size : Nat) (s : List Nat) : Bool :=
  match s.max?, s.min? with
  | some mx, some mn => mx - mn == size - 1 && s.length == size
  | _, _ => false

/-- `Hand.is_straight`: try the value set as-is (ace = 1) and with every
ace replaced by 14; accept if either passes `check`. -/
def Hand.is_straight (h : Hand) : Bool :=
  straightCheck h.size h.values.dedup ||
  straightCheck h.size ((h.values.map fun x => if x = 1 then 14 else x).dedup)

/-- `Hand.is_three_of_a_kind`: `self._vals[0] == 3`. -/
def Hand.is_three_of_a_kind (h : Hand) : Bool := h.vals.headI == 3

/-- `Hand.is_two_pair`: `self._vals[0:2] == [2, 2]`. -/
def Hand.is_two_pair (h : Hand) : Bool := h.vals.take 2 == [2, 2]

/-- `Hand.is_one_pair`: `self._vals[0] == 2`. -/
def Hand.is_one_pair (h : Hand) : Bool := h.vals.headI == 2

/-- `Hand.is_straight_flush`: `self.is_flush and self.is_straight`. -/
def Hand.is_straight_flush (h : Hand) : Bool := h.is_flush && h.is_straight

/-- `Hand.rank`: the if-chain of category checks, strongest first. -/
def Hand.rank (h : Hand) : RankT :=
  if h.is_straight_flush then .straight_flush
  else if h.is_four_of_a_kind then .four_of_a_kind
  else if h.is_full_house then .full_house
  else if h.is_flush then .flush
  else if h.is_straight then .straight
  else if h.is_three_of_a_kind then .three_of_a_kind
  else if h.is_two_pair then .two_pair
  else if h.is_one_pair then .pair
  else .high_card

/-- The `Deck` class state: the live card list (tail = top of the deck)
and the two counters. -/
structure Deck where
  cards : List Card
  shuffles : Nat
  draws : Nat
deriving DecidableEq, Repr

/-- `self.cards.pop()`: remove and return the last element, `none` on an
empty list (Python raises `IndexError`). -/
def popLast (l : List Card) : Option (Card × List Card) :=
  match l.getLast? with
  | none => none
  | some c => some (c, l.dropLast)

/-- The default 52-card enumeration of `Deck.__init__` before the final
`reverse`: `for suit in Card.Suits.all(): for value in Card.Values.all()`. -/
def baseCards : List Card :=
  Suits.all.flatMap fun s => Values.all.map fun v => ⟨v, s⟩

/-- The card list a default `Deck` starts with: the base enumeration,
reversed (`self.cards.reverse()`). -/
def defaultCards : List Card := baseCards.reverse

/-- One iteration of `Deck.shuffle`'s loop: `self.shuffles += 1` and a
permutation of the live cards, modelled by the function `f`. -/
def shuffleStep (f : List Card → List Card) (d : Deck) : Deck :=
  { d with shuffles := d.shuffles + 1, cards := f d.cards }

/-- `Deck.shuffle(times)`: repeat `shuffleStep` `times` times
(`for _ in range(times)`). -/
def Deck.shuffleN (f : List Card → List Card) : Nat → Deck → Deck
  | 0, d => d
  | n + 1, d => Deck.shuffleN f n (shuffleStep f d)

/-- `Deck.__init__`: an optional caller-supplied card list (a non-empty
list is truthy; `None` or an empty list selects the default 52-card
enumeration), counters zeroed, then one `shuffle()` if `doShuffle`. -/
def Deck.init (cards : Option (List Card)) (doShuffle : Bool)
    (f : List Card → List Card) : Deck :=
  let cs : List Card :=
    match cards with
    | some l => if l.isEmpty then defaultCards else l
    | none => defaultCards
  let d : Deck := { cards := cs, shuffles := 0, draws := 0 }
  if doShuffle then d.shuffleN f 1 else d

/-- `Deck.cards_left`: `len(self.cards)`. -/
def Deck.cards_left (d : Deck) : Nat := d.cards.length

/-- Result of `Deck.draw`: a single card (`times == 1` branch), a list of
cards, or a propagated `IndexError` from popping an empty list. -/
inductive DrawResult
  | single : Card → DrawResult
  | multi : List Card → DrawResult
  | err : DrawResult
deriving DecidableEq, Repr

/-- The `for _ in range(times)` loop of `Deck.draw`: each iteration first
increments `self.draws`, then pops the top card; a pop from an empty list
stops the loop with the error flag set (the `IndexError` propagates with
the deck as mutated so far). Returns (deck, accumulated cards, errored). -/
def drawLoop : Nat → Deck → List Card → Deck × List Card × Bool
  | 0, d, acc => (d, acc, false)
  | n + 1, d, acc =>
    let d1 : Deck := { d with draws := d.draws + 1 }
    match popLast d1.cards with
    | none => (d1, acc, true)
    | some (c, rest) => drawLoop n { d1 with cards := rest } (acc ++ [c])

/-- `Deck.draw(times)`: the `times == 1` fast path pops a single card;
otherwise the loop collects `times` cards (an empty collection for
`times <= 0`, since `range` is empty then). -/
def Deck.draw (d : Deck) (times : Int) : DrawResult × Deck :=
  if times = 1 then
    let d1 : Deck := { d with draws := d.draws + 1 }
    match popLast d1.cards with
    | none => (.err, d1)
    | some (c, rest) => (.single c, { d1 with cards := rest })
  else
    match drawLoop times.toNat d [] with
    | (d2, acc, errored) => if errored then (.err, d2) else (.multi acc, d2)

/-- A deck operation after construction: a draw or a shuffle (the shuffle
carries the permutation used by `random.shuffle`). -/
inductive Op
  | draw (times : Int)
  | shuffle (f : List Card → List Card) (times : Nat)

/-- Apply one operation to a deck, keeping only the resulting state. -/
def applyOp : Op → Deck → Deck
  | .draw t, d => (d.draw t).2
  | .shuffle f n, d => d.shuffleN f n

/-- Run a sequence of deck operations. -/
def runOps (ops : List Op) (d : Deck) : Deck := ops.foldl (fun d op => applyOp op d) d

/-- The operation does not fail on the given deck: a draw request fits the
cards remaining, and a shuffle's permutation preserves the length of the
list it permutes. -/
def OpOK : Op → Deck → Prop
  | .draw t, d => (t = 1 → d.cards ≠ []) ∧ (t ≠ 1 → t.toNat ≤ d.cards.length)
  | .shuffle f _, _ => ∀ l, (f l).length = l.length

/-- Every operation along the run succeeds on the deck state it meets. -/
def OpsOK : List Op → Deck → Prop
  | [], _ => True
  | op :: rest, d => OpOK op d ∧ OpsOK rest (applyOp op d)

/-- The ace-low straight hand AS, 2C, 3D, 4H, 5S. -/
def aceLowHand : Hand :=
  Hand.ofCards [⟨.ace, .spades⟩, ⟨.two, .clubs⟩, ⟨.three, .diamonds⟩,
    ⟨.four, .hearts⟩, ⟨.five, .spades⟩]

/-- The ace-high straight hand TS, JC, QD, KH, AS. -/
def aceHighHand : Hand :=
  Hand.ofCards [⟨.ten, .spades⟩, ⟨.jack, .clubs⟩, ⟨.queen, .diamonds⟩,
    ⟨.king, .hearts⟩, ⟨.ace, .spades⟩]


lemma popLast_of_ne_nil (l : List Card) (h : l ≠ []) :
    popLast l = some (l.getLast h, l.dropLast) := by
  unfold popLast
  rw [List.getLast?_eq_getLast l h]

lemma drawLoop_succ_nil (m : Nat) (d : Deck) (acc : List Card)
    (h : d.cards = []) :
    drawLoop (m + 1) d acc = ({ d with draws := d.draws + 1 }, acc, true) := by
  show (match popLast d.cards with
    | none => ({ d with draws := d.draws + 1 }, acc, true)
    | some (c, rest) =>
        drawLoop m { d with draws := d.draws + 1, cards := rest }
          (acc ++ [c])) = _
  rw [h]
  rfl

lemma drawLoop_succ_cons (m : Nat) (d : Deck) (acc : List Card)
    (h : d.cards ≠ []) :
    drawLoop (m + 1) d acc =
      drawLoop m { d with draws := d.draws + 1, cards := d.cards.dropLast }
        (acc ++ [d.cards.getLast h]) := by
  show (match popLast d.cards with
    | none => ({ d with draws := d.draws + 1 }, acc, true)
    | some (c, rest) =>
        drawLoop m { d with draws := d.draws + 1, cards := rest }
          (acc ++ [c])) = _
  rw [popLast_of_ne_nil d.cards h]

lemma drawLoop_over (n : Nat) (d : Deck) (acc : List Card)
    (hn : d.cards.length < n) :
    (drawLoop n d acc).1 =
      { cards := [], shuffles := d.shuffles,
        draws := d.draws + d.cards.length + 1 } ∧
    (drawLoop n d acc).2.2 = true := by
  induction n generalizing d acc with
  | zero => omega
  | succ m ih =>
    by_cases hne : d.cards = []
    · rw [drawLoop_succ_nil m d acc hne]
      refine ⟨?_, rfl⟩
      rw [show d.cards.length = 0 from by rw [hne]; rfl]
      exact congrArg (fun cs => Deck.mk cs d.shuffles (d.draws + 1)) hne
    · rw [drawLoop_succ_cons m d acc hne]
      have hlen : 1 ≤ d.cards.length := List.length_pos.mpr hne
      have hlt :
          ({ d with draws := d.draws + 1, cards := d.cards.dropLast } :
            Deck).cards.length < m := by
        show d.cards.dropLast.length < m
        rw [List.length_dropLast]
        omega
      obtain ⟨h1, h2⟩ := ih _ (acc ++ [d.cards.getLast hne]) hlt
      refine ⟨?_, h2⟩
      rw [h1]
      show Deck.mk [] d.shuffles (d.draws + 1 + d.cards.dropLast.length + 1) = _
      rw [List.length_dropLast]
      congr 1
      omega

lemma drawLoop_ok (n : Nat) (d : Deck) (acc : List Card)
    (hn : n ≤ d.cards.length) :
    (drawLoop n d acc).1.cards.length = d.cards.length - n ∧
    (drawLoop n d acc).1.draws = d.draws + n ∧
    (drawLoop n d acc).1.shuffles = d.shuffles ∧
    (drawLoop n d acc).2.2 = false := by
  induction n generalizing d acc with
  | zero => exact ⟨rfl, rfl, rfl, rfl⟩
  | succ m ih =>
    have hne : d.cards ≠ [] := by
      intro h
      rw [h] at hn
      simp at hn
    have hlen : 1 ≤ d.cards.length := List.length_pos.mpr hne
    rw [drawLoop_succ_cons m d acc hne]
    have hm :
        m ≤ ({ d with draws := d.draws + 1, cards := d.cards.dropLast } :
          Deck).cards.length := by
      show m ≤ d.cards.dropLast.length
      rw [List.length_dropLast]
      omega
    obtain ⟨h1, h2, h3, h4⟩ := ih _ (acc ++ [d.cards.getLast hne]) hm
    refine ⟨?_, ?_, h3, h4⟩
    · rw [h1]
      show d.cards.dropLast.length - m = d.cards.length - (m + 1)
      rw [List.length_dropLast]
      omega
    · rw [h2]
      show d.draws + 1 + m = d.draws + (m + 1)
      omega

lemma draw_one_of_nil (d : Deck) (h : d.cards = []) :
    d.draw 1 = (DrawResult.err, { d with draws := d.draws + 1 }) := by
  unfold Deck.draw
  rw [if_pos rfl]
  show (match popLast d.cards with
    | none => (DrawResult.err, { d with draws := d.draws + 1 })
    | some (c, rest) =>
        (DrawResult.single c,
          { d with draws := d.draws + 1, cards := rest })) = _
  rw [h]
  rfl

lemma draw_one_of_ne_nil (d : Deck) (h : d.cards ≠ []) :
    d.draw 1 = (DrawResult.single (d.cards.getLast h),
      { d with draws := d.draws + 1, cards := d.cards.dropLast }) := by
  unfold Deck.draw
  rw [if_pos rfl]
  show (match popLast d.cards with
    | none => (DrawResult.err, { d with draws := d.draws + 1 })
    | some (c, rest) =>
        (DrawResult.single c,
          { d with draws := d.draws + 1, cards := rest })) = _
  rw [popLast_of_ne_nil d.cards h]

lemma draw_of_ne_one (d : Deck) (t : Int) (h : t ≠ 1) :
    d.draw t =
      (if (drawLoop t.toNat d []).2.2 then (DrawResult.err, (drawLoop t.toNat d []).1)
       else (DrawResult.multi (drawLoop t.toNat d []).2.1, (drawLoop t.toNat d []).1)) := by
  unfold Deck.draw
  rw [if_neg h]

lemma shuffleN_counts (f : List Card → List Card)
    (hf : ∀ l, (f l).length = l.length) (n : Nat) (d : Deck) :
    (d.shuffleN f n).cards.length = d.cards.length ∧
    (d.shuffleN f n).draws = d.draws := by
  induction n generalizing d with
  | zero => exact ⟨rfl, rfl⟩
  | succ m ih =>
    have hstep : Deck.shuffleN f (m + 1) d = Deck.shuffleN f m (shuffleStep f d) := rfl
    rw [hstep]
    obtain ⟨h1, h2⟩ := ih (shuffleStep f d)
    refine ⟨?_, h2⟩
    rw [h1]
    exact hf d.cards

lemma applyOp_counter (op : Op) (d : Deck) (hok : OpOK op d) :
    (applyOp op d).draws + (applyOp op d).cards.length =
      d.draws + d.cards.length := by
  cases op with
  | draw t =>
    by_cases h1 : t = 1
    · subst h1
      have hne : d.cards ≠ [] := hok.1 rfl
      have hlen : 1 ≤ d.cards.length := List.length_pos.mpr hne
      show (d.draw 1).2.draws + (d.draw 1).2.cards.length =
        d.draws + d.cards.length
      rw [draw_one_of_ne_nil d hne]
      show d.draws + 1 + d.cards.dropLast.length = d.draws + d.cards.length
      rw [List.length_dropLast]
      omega
    · have hle : t.toNat ≤ d.cards.length := hok.2 h1
      show (d.draw t).2.draws + (d.draw t).2.cards.length =
        d.draws + d.cards.length
      rw [draw_of_ne_one d t h1]
      obtain ⟨h2, h3, _, h5⟩ := drawLoop_ok t.toNat d [] hle
      rw [h5]
      show (drawLoop t.toNat d []).1.draws +
        (drawLoop t.toNat d []).1.cards.length = d.draws + d.cards.length
      rw [h2, h3]
      omega
  | shuffle f n =>
    obtain ⟨h1, h2⟩ := shuffleN_counts f hok n d
    show (d.shuffleN f n).draws + (d.shuffleN f n).cards.length =
      d.draws + d.cards.length
    rw [h1, h2]

lemma runOps_counter (ops : List Op) (d : Deck) (hok : OpsOK ops d) :
    (runOps ops d).draws + (runOps ops d).cards.length =
      d.draws + d.cards.length := by
  induction ops generalizing d with
  | nil => rfl
  | cons op rest ih =>
    calc (runOps (op :: rest) d).draws + (runOps (op :: rest) d).cards.length
        = (runOps rest (applyOp op d)).draws +
            (runOps rest (applyOp op d)).cards.length := rfl
      _ = (applyOp op d).draws + (applyOp op d).cards.length := ih _ hok.2
      _ = d.draws + d.cards.length := applyOp_counter op d hok.1

/-- C9: for every deck, `draw` with `times = 0` or any negative `times`
(anything but 1 enters the loop, whose `range` is then empty) returns an
empty list of cards, removes nothing from the live sequence and leaves the
draw counter unchanged — no error is raised. -/
theorem draw_nonpositive_noop (d : Deck) (t : Int) (ht : t ≤ 0) :
    d.draw t = (DrawResult.multi [], d) := by
  rw [draw_of_ne_one d t (by omega)]
  rw [Int.toNat_of_nonpos ht]
  rfl

/-- Witness for C9 at a concrete one-card deck with `times = 0`. -/
theorem draw_nonpositive_noop_witness :
    (Deck.mk [⟨.ace, .spades⟩] 0 0).draw 0 =
      (DrawResult.multi [], Deck.mk [⟨.ace, .spades⟩] 0 0) :=
  draw_nonpositive_noop (Deck.mk [⟨.ace, .spades⟩] 0 0) 0 (by decide)

/-- C1 counterexample: drawing 2 cards from a deck holding 1 card does
fail, but the deck is NOT left with its 1 card: the live sequence is
drained to 0 cards before the error is raised. -/
theorem draw_overdraw_cx :
    ((Deck.mk [⟨.ace, .spades⟩] 0 0).draw 2).1 = DrawResult.err ∧
    ((Deck.mk [⟨.ace, .spades⟩] 0 0).draw 2).2.cards_left ≠ 1 := by
  decide

/-- C1 amended: a draw request exceeding the cards remaining fails with
the (IndexError) underflow error and returns no partial card sequence, but
it does not leave the deck unmodified: every remaining card is popped
before the failing pop, so `cards_left` is 0 afterwards and the draw
counter has grown by `N + 1`. -/
theorem draw_overdraw_drains (d : Deck) (t : Int)
    (ht : (d.cards.length : Int) < t) :
    (d.draw t).1 = DrawResult.err ∧
    (d.draw t).2.cards = [] ∧
    (d.draw t).2.draws = d.draws + d.cards.length + 1 ∧
    (d.draw t).2.shuffles = d.shuffles := by
  by_cases h1 : t = 1
  · subst h1
    have hnil : d.cards = [] := by
      have : d.cards.length = 0 := by omega
      exact List.length_eq_zero.mp this
    rw [draw_one_of_nil d hnil]
    refine ⟨rfl, hnil, ?_, rfl⟩
    show d.draws + 1 = d.draws + d.cards.length + 1
    rw [hnil]
    rfl
  · have hlt : d.cards.length < t.toNat := by omega
    rw [draw_of_ne_one d t h1]
    obtain ⟨h2, h3⟩ := drawLoop_over t.toNat d [] hlt
    rw [h3]
    rw [if_pos rfl]
    rw [h2]
    exact ⟨rfl, rfl, rfl, rfl⟩

/-- Witness for C1's amended theorem at a concrete one-card deck. -/
theorem draw_overdraw_drains_witness :
    ((Deck.mk [⟨.ace, .spades⟩] 0 0).draw 2).1 = DrawResult.err ∧
    ((Deck.mk [⟨.ace, .spades⟩] 0 0).draw 2).2.cards = [] ∧
    ((Deck.mk [⟨.ace, .spades⟩] 0 0).draw 2).2.draws = 0 + 1 + 1 ∧
    ((Deck.mk [⟨.ace, .spades⟩] 0 0).draw 2).2.shuffles = 0 :=
  draw_overdraw_drains (Deck.mk [⟨.ace, .spades⟩] 0 0) 2 (by decide)

/-- C2 counterexample: after a failed over-draw (2 cards requested from a
deck constructed with 1 card) the deck instance survives with
`draws + cards_left = 2 ≠ 1 = initial cards_left`. -/
theorem deck_invariant_cx :
    ((Deck.init (some [⟨.ace, .spades⟩]) false id).draw 2).2.draws +
      ((Deck.init (some [⟨.ace, .spades⟩]) false id).draw 2).2.cards_left ≠
      (Deck.init (some [⟨.ace, .spades⟩]) false id).cards_left := by
  decide

/-- C2 amended: for every constructed deck and every sequence of shuffle
and draw operations in which each shuffle permutes (preserves the length
of) the live sequence and each draw request fits the cards remaining,
`draws + cards_left` equals the `cards_left` the deck was constructed
with; a failed draw breaks the invariant (see the counterexample). -/
theorem deck_counter_invariant (ops : List Op) (cs : Option (List Card))
    (b : Bool) (f : List Card → List Card)
    (hf : ∀ l, (f l).length = l.length)
    (hok : OpsOK ops (Deck.init cs b f)) :
    (runOps ops (Deck.init cs b f)).draws +
      (runOps ops (Deck.init cs b f)).cards_left =
      (Deck.init cs b f).cards_left := by
  have h0 : (Deck.init cs b f).draws = 0 := by
    unfold Deck.init
    cases b with
    | false => rfl
    | true => exact (shuffleN_counts f hf 1 _).2
  have hrun := runOps_counter ops (Deck.init cs b f) hok
  unfold Deck.cards_left
  omega

/-- Witness for C2's amended theorem: one successful 2-card draw from a
3-card deck keeps `draws + cards_left = 3`. -/
theorem deck_counter_invariant_witness :
    (runOps [Op.draw 2]
        (Deck.init (some [⟨.ace, .spades⟩, ⟨.two, .clubs⟩, ⟨.three, .diamonds⟩])
          false id)).draws +
      (runOps [Op.draw 2]
        (Deck.init (some [⟨.ace, .spades⟩, ⟨.two, .clubs⟩, ⟨.three, .diamonds⟩])
          false id)).cards_left =
      (Deck.init (some [⟨.ace, .spades⟩, ⟨.two, .clubs⟩, ⟨.three, .diamonds⟩])
        false id).cards_left :=
  deck_counter_invariant [Op.draw 2]
    (some [⟨.ace, .spades⟩, ⟨.two, .clubs⟩, ⟨.three, .diamonds⟩]) false id
    (fun _ => rfl)
    ⟨⟨fun h => absurd h (by decide), fun _ => by decide⟩, trivial⟩

/-- C3: the default enumeration builds all 52 (value, suit) pairs, each
exactly once, as the reverse of the suit-by-value base order, so that the
first draw from an unshuffled default deck returns the first card of the
base ordering (the ace of spades). -/
theorem deck_default_enumeration :
    defaultCards = baseCards.reverse ∧
    defaultCards.length = 52 ∧
    (∀ c : Card, defaultCards.count c = 1) ∧
    baseCards.headI = ⟨ValueT.ace, SuitT.spades⟩ ∧
    (Deck.init none false id).cards = defaultCards ∧
    ((Deck.init none false id).draw 1).1 =
      DrawResult.single ⟨ValueT.ace, SuitT.spades⟩ := by
  refine ⟨rfl, by decide, by decide, by decide, rfl, by decide⟩

/-- C7 counterexample: the ace of spades and the ace of clubs have equal
value strength, yet `<=` between them is false, because `__le__` is
`< or ==` and `__eq__` also requires the suits to match. -/
theorem card_le_cx :
    Card.le ⟨.ace, .spades⟩ ⟨.ace, .clubs⟩ = false ∧
    (Card.mk .ace .spades).value.val ≤ (Card.mk .ace .clubs).value.val := by
  decide

/-- C7 amended: `<` and `>` compare value strength only (ace = 1) and
ignore suit; equality requires both value and suit to match; `<=` (resp.
`>=`) holds iff the value strength is strictly smaller (resp. greater) or
the cards are fully equal — so for equal value but different suits neither
`<=` nor `>=` holds. -/
theorem card_order_spec (a b : Card) :
    (Card.lt a b = decide (a.value.val < b.value.val)) ∧
    (Card.gt a b = decide (b.value.val < a.value.val)) ∧
    (Card.eqb a b = true ↔ a = b) ∧
    (Card.le a b = true ↔ (a.value.val < b.value.val ∨ a = b)) ∧
    (Card.ge a b = true ↔ (b.value.val < a.value.val ∨ a = b)) := by
  revert a b
  decide

/-- C8: for each of the 52 cards, parsing its two-character letter-code
display form (value code then suit letter) with `Card.get` returns the
very same card, and the parse is case-insensitive (the lowercased code
parses to the same card). -/
theorem card_roundtrip (c : Card) :
    Card.get (Card.letterCode c) = some c ∧
    Card.get ((Card.letterCode c).map Char.toLower) = some c := by
  revert c
  decide

/-- C10: a hand of exactly one card ranks as a straight flush: its single
suit makes it a flush and its one-element value set passes the straight
check vacuously. -/
theorem single_card_straight_flush (c : Card) :
    (Hand.ofCards [c]).rank = RankT.straight_flush := by
  revert c
  decide

/-- Spec side (C5): the ordered list of category checks of `Hand.rank`,
strongest first, paired with the rank each check selects. -/
def rankChecks (h : Hand) : List (Bool × RankT) :=
  [(h.is_straight_flush, .straight_flush),
   (h.is_four_of_a_kind, .four_of_a_kind),
   (h.is_full_house, .full_house),
   (h.is_flush, .flush),
   (h.is_straight, .straight),
   (h.is_three_of_a_kind, .three_of_a_kind),
   (h.is_two_pair, .two_pair),
   (h.is_one_pair, .pair)]

/-- Spec side (C5): first-match evaluation — the rank paired with the
first passing check, or high card when none passes. -/
def firstMatch : List (Bool × RankT) → RankT
  | [] => .high_card
  | (b, r) :: rest => if b then r else firstMatch rest

/-- C5: `rank` is exactly first-match evaluation of the priority list
straight-flush, four-of-a-kind, full-house, flush, straight,
three-of-a-kind, two-pair, pair, high-card; consequently a hand passing a
strong check is never classified by a weaker one — e.g. a four-of-a-kind
hand always ranks with strength at least 7, never as a pair. -/
theorem rank_first_match (h : Hand) (hne : h.cards ≠ []) :
    h.rank = firstMatch (rankChecks h) ∧
    (h.is_four_of_a_kind = true → 7 ≤ h.rank.val) := by
  constructor
  · rfl
  · intro hf
    unfold Hand.rank
    by_cases hsf : h.is_straight_flush
    · rw [if_pos hsf]
      decide
    · rw [if_neg hsf, if_pos hf]
      decide

/-- Witness for C5 at the four-of-a-kind hand 2S, 2C, 2D, 2H, 5S. -/
theorem rank_first_match_witness :
    7 ≤ (Hand.ofCards [⟨.two, .spades⟩, ⟨.two, .clubs⟩, ⟨.two, .diamonds⟩,
      ⟨.two, .hearts⟩, ⟨.five, .spades⟩]).rank.val :=
  (rank_first_match
    (Hand.ofCards [⟨.two, .spades⟩, ⟨.two, .clubs⟩, ⟨.two, .diamonds⟩,
      ⟨.two, .hearts⟩, ⟨.five, .spades⟩]) (by decide)).2 (by decide)

/-- Spec side (C4): the value set with every value taken as-is (ace = 1). -/
def Hand.lowSet (h : Hand) : Finset Nat := h.values.toFinset

/-- Spec side (C4): the value set with every ace taken as 14. -/
def Hand.highSet (h : Hand) : Finset Nat :=
  (h.values.map fun x => if x = 1 then 14 else x).toFinset

/-- Spec side (C4): the set is a contiguous run covering the whole hand:
max − min = size − 1 and as many distinct values as cards. -/
def runSpec (size : Nat) (s : Finset Nat) : Prop :=
  ∃ hn : s.Nonempty, s.max' hn - s.min' hn = size - 1 ∧ s.card = size

/-- Spec side (C4): at least one of the two ace interpretations yields a
contiguous, duplicate-free run. -/
def straightSpec (h : Hand) : Prop :=
  runSpec h.size h.lowSet ∨ runSpec h.size h.highSet

lemma natMaxSpec (l : List Nat) (h : l ≠ []) :
    ∃ m, l.max? = some m ∧ m ∈ l ∧ ∀ b ∈ l, b ≤ m := by
  cases hm : l.max? with
  | none => exact absurd (List.max?_eq_none_iff.mp hm) h
  | some m =>
    have := (List.max?_eq_some_iff (fun a => le_refl a) (fun a b => max_choice a b)
      (fun a b c => max_le_iff)).mp hm
    exact ⟨m, rfl, this.1, this.2⟩

lemma natMinSpec (l : List Nat) (h : l ≠ []) :
    ∃ m, l.min? = some m ∧ m ∈ l ∧ ∀ b ∈ l, m ≤ b := by
  cases hm : l.min? with
  | none => exact absurd (List.min?_eq_none_iff.mp hm) h
  | some m =>
    have := (List.min?_eq_some_iff (fun a => le_refl a) (fun a b => min_choice a b)
      (fun a b c => le_min_iff)).mp hm
    exact ⟨m, rfl, this.1, this.2⟩

lemma straightCheck_iff (size : Nat) (l : List Nat) (hl : l ≠ []) :
    straightCheck size l.dedup = true ↔ runSpec size l.toFinset := by
  have hD : l.dedup ≠ [] := by
    obtain ⟨a, ha⟩ := List.exists_mem_of_ne_nil l hl
    exact List.ne_nil_of_mem (List.mem_dedup.mpr ha)
  obtain ⟨mx, hmx, hmxmem, hmxub⟩ := natMaxSpec l.dedup hD
  obtain ⟨mn, hmn, hmnmem, hmnlb⟩ := natMinSpec l.dedup hD
  have hfin : l.toFinset.Nonempty :=
    ⟨mx, List.mem_toFinset.mpr (List.mem_dedup.mp hmxmem)⟩
  have hmax : l.toFinset.max' hfin = mx := by
    apply le_antisymm
    · have hmem := Finset.max'_mem l.toFinset hfin
      rw [List.mem_toFinset] at hmem
      exact hmxub _ (List.mem_dedup.mpr hmem)
    · exact Finset.le_max' _ _ (List.mem_toFinset.mpr (List.mem_dedup.mp hmxmem))
  have hmin : l.toFinset.min' hfin = mn := by
    apply le_antisymm
    · exact Finset.min'_le _ _ (List.mem_toFinset.mpr (List.mem_dedup.mp hmnmem))
    · have hmem := Finset.min'_mem l.toFinset hfin
      rw [List.mem_toFinset] at hmem
      exact hmnlb _ (List.mem_dedup.mpr hmem)
  have hcard : l.toFinset.card = l.dedup.length := List.card_toFinset l
  have heq : straightCheck size l.dedup =
      (mx - mn == size - 1 && l.dedup.length == size) := by
    unfold straightCheck
    rw [hmx, hmn]
  rw [heq, Bool.and_eq_true, beq_iff_eq, beq_iff_eq]
  constructor
  · rintro ⟨h1, h2⟩
    exact ⟨hfin, by rw [hmax, hmin]; exact h1, by rw [hcard]; exact h2⟩
  · rintro ⟨hn, h1, h2⟩
    constructor
    · rw [← hmax, ← hmin]
      exact h1
    · rw [← hcard]
      exact h2

lemma values_ne_nil (h : Hand) (hne : h.cards ≠ []) : h.values ≠ [] := by
  unfold Hand.values
  intro hcon
  exact hne (List.map_eq_nil_iff.mp hcon)

/-- C4: for every non-empty hand, `is_straight` holds iff one of the two
ace interpretations (all values as-is, or every ace as 14) yields a value
set with max − min = size − 1 and as many distinct values as cards; in
particular the ace-low hand A,2,3,4,5 and the ace-high hand T,J,Q,K,A
both rank as straight. -/
theorem is_straight_spec (h : Hand) (hne : h.cards ≠ []) :
    (h.is_straight = true ↔ straightSpec h) ∧
    aceLowHand.rank = RankT.straight ∧
    aceHighHand.rank = RankT.straight := by
  refine ⟨?_, by decide, by decide⟩
  have hv : h.values ≠ [] := values_ne_nil h hne
  have hv2 : (h.values.map fun x => if x = 1 then 14 else x) ≠ [] := by
    intro hcon
    exact hv (List.map_eq_nil_iff.mp hcon)
  unfold Hand.is_straight
  rw [Bool.or_eq_true]
  unfold straightSpec
  rw [straightCheck_iff h.size h.values hv,
    straightCheck_iff h.size (h.values.map fun x => if x = 1 then 14 else x) hv2]
  exact Iff.rfl

/-- Witness for C4 at the ace-low straight hand AS, 2C, 3D, 4H, 5S. -/
theorem is_straight_spec_witness :
    aceLowHand.is_straight = true ↔ straightSpec aceLowHand :=
  (is_straight_spec aceLowHand (by decide)).1

/-- Spec side (C6): the largest value-group has size exactly `k` (some
group reaches `k` and no group exceeds it). -/
def maxGroupSpec (h : Hand) (k : Nat) : Prop :=
  (∃ v, h.countVal v = k) ∧ ∀ v, h.countVal v ≤ k

/-- Spec side (C6): the two largest value-groups are exactly [3, 2]: one
value occurs three times, every other value at most twice, and some value
occurs exactly twice. -/
def fullHouseSpec (h : Hand) : Prop :=
  ∃ v, h.countVal v = 3 ∧ (∀ u, u ≠ v → h.countVal u ≤ 2) ∧ ∃ w, h.countVal w = 2

/-- Spec side (C6): the two largest value-groups are exactly [2, 2]: two
distinct values occur exactly twice and no value occurs more than twice. -/
def twoPairSpec (h : Hand) : Prop :=
  (∃ v w, v ≠ w ∧ h.countVal v = 2 ∧ h.countVal w = 2) ∧ ∀ u, h.countVal u ≤ 2

lemma dedup_values_ne_nil (h : Hand) (hne : h.cards ≠ []) :
    h.values.dedup ≠ [] := by
  obtain ⟨a, ha⟩ := List.exists_mem_of_ne_nil h.values (values_ne_nil h hne)
  exact List.ne_nil_of_mem (List.mem_dedup.mpr ha)

lemma vals_perm (h : Hand) : h.vals.Perm h.groupSizes :=
  List.perm_insertionSort _ _

lemma vals_sorted (h : Hand) : List.Sorted (fun a b => b ≤ a) h.vals :=
  List.sorted_insertionSort _ _

lemma mem_vals_iff (h : Hand) (n : Nat) :
    n ∈ h.vals ↔ ∃ v, v ∈ h.values.dedup ∧ h.countVal v = n := by
  rw [(vals_perm h).mem_iff]
  unfold Hand.groupSizes
  exact List.mem_map

lemma vals_count (h : Hand) (n : Nat) :
    h.vals.count n = (h.values.dedup.map h.countVal).count n :=
  (vals_perm h).count_eq n

lemma count_mem_dedup (h : Hand) (v : Nat) :
    v ∈ h.values.dedup ↔ h.countVal v ≠ 0 := by
  rw [List.mem_dedup]
  unfold Hand.countVal
  constructor
  · intro hv h0
    exact (List.count_eq_zero.mp h0) hv
  · intro hnz
    by_contra hcon
    exact hnz (List.count_eq_zero.mpr hcon)

lemma vals_ne_nil (h : Hand) (hne : h.cards ≠ []) : h.vals ≠ [] := by
  obtain ⟨a, ha⟩ := List.exists_mem_of_ne_nil _ (dedup_values_ne_nil h hne)
  exact List.ne_nil_of_mem ((mem_vals_iff h _).mpr ⟨a, ha, rfl⟩)

lemma headI_mem_of_ne_nil (l : List Nat) (hl : l ≠ []) : l.headI ∈ l := by
  cases l with
  | nil => exact absurd rfl hl
  | cons a t => exact List.mem_cons_self a t

lemma sorted_desc_le_headI (l : List Nat)
    (hs : List.Sorted (fun a b => b ≤ a) l) {x : Nat} (hx : x ∈ l) :
    x ≤ l.headI := by
  cases l with
  | nil => cases hx
  | cons a t =>
    rcases List.mem_cons.mp hx with rfl | hxt
    · exact le_refl _
    · exact (List.sorted_cons.mp hs).1 _ hxt

lemma two_count_of_pair {D : List Nat} {f : Nat → Nat} {n u v : Nat}
    (hu : u ∈ D) (hv : v ∈ D) (huv : u ≠ v) (hfu : f u = n) (hfv : f v = n) :
    2 ≤ (D.map f).count n := by
  have hperm := (List.perm_cons_erase hu).map f
  rw [hperm.count_eq n, List.map_cons, hfu, List.count_cons_self]
  have hvmem : n ∈ (D.erase u).map f :=
    List.mem_map.mpr ⟨v, (List.mem_erase_of_ne (fun e => huv e.symm)).mpr hv, hfv⟩
  have := List.count_pos_iff.mpr hvmem
  omega

lemma count_one_of_unique {D : List Nat} {f : Nat → Nat} {n v : Nat}
    (hD : D.Nodup) (hv : v ∈ D) (hfv : f v = n)
    (huniq : ∀ u, u ∈ D → u ≠ v → f u ≠ n) :
    (D.map f).count n = 1 := by
  have hperm := (List.perm_cons_erase hv).map f
  rw [hperm.count_eq n, List.map_cons, hfv, List.count_cons_self]
  have hnot : n ∉ (D.erase v).map f := by
    intro hmem
    obtain ⟨u, hu, hfu⟩ := List.mem_map.mp hmem
    have h1 := (List.Nodup.mem_erase_iff hD).mp hu
    exact huniq u h1.2 h1.1 hfu
  rw [List.count_eq_zero.mpr hnot]

lemma pair_of_two_count {D : List Nat} {f : Nat → Nat} {n : Nat} (hD : D.Nodup)
    (h2 : 2 ≤ (D.map f).count n) :
    ∃ u, u ∈ D ∧ ∃ v, v ∈ D ∧ u ≠ v ∧ f u = n ∧ f v = n := by
  have h1 : n ∈ D.map f := List.count_pos_iff.mp (by omega)
  obtain ⟨u, hu, hfu⟩ := List.mem_map.mp h1
  have hperm := (List.perm_cons_erase hu).map f
  rw [hperm.count_eq n, List.map_cons, hfu, List.count_cons_self] at h2
  have h3 : n ∈ (D.erase u).map f := List.count_pos_iff.mp (by omega)
  obtain ⟨v, hv, hfv⟩ := List.mem_map.mp h3
  have h4 := (List.Nodup.mem_erase_iff hD).mp hv
  exact ⟨u, hu, v, h4.2, fun e => h4.1 e.symm, hfu, hfv⟩

lemma vals_headI_iff (h : Hand) (hne : h.cards ≠ []) (k : Nat) (hk : 0 < k) :
    h.vals.headI = k ↔ maxGroupSpec h k := by
  unfold maxGroupSpec
  constructor
  · intro hk'
    have hvne := vals_ne_nil h hne
    have hmem := headI_mem_of_ne_nil h.vals hvne
    rw [hk'] at hmem
    obtain ⟨v, hvD, hcv⟩ := (mem_vals_iff h k).mp hmem
    refine ⟨⟨v, hcv⟩, ?_⟩
    intro u
    by_cases hu0 : h.countVal u = 0
    · omega
    · have huD := (count_mem_dedup h u).mpr hu0
      have hmem2 : h.countVal u ∈ h.vals := (mem_vals_iff h _).mpr ⟨u, huD, rfl⟩
      have hle := sorted_desc_le_headI h.vals (vals_sorted h) hmem2
      omega
  · rintro ⟨⟨v, hv⟩, hub⟩
    have hvD := (count_mem_dedup h v).mpr (by omega)
    have hkmem : k ∈ h.vals := (mem_vals_iff h k).mpr ⟨v, hvD, hv⟩
    have h1 : k ≤ h.vals.headI := sorted_desc_le_headI h.vals (vals_sorted h) hkmem
    have hvne := vals_ne_nil h hne
    obtain ⟨u, huD, hcu⟩ := (mem_vals_iff h _).mp (headI_mem_of_ne_nil h.vals hvne)
    have h2 := hub u
    omega

lemma take_two_iff (l : List Nat) (a b : Nat) :
    l.take 2 = [a, b] ↔ ∃ t, l = a :: b :: t := by
  rcases l with _ | ⟨x, _ | ⟨y, t⟩⟩
  · simp
  · simp
  · constructor
    · intro ht
      have h1 : x = a ∧ y = b := by simpa using ht
      exact ⟨t, by rw [h1.1, h1.2]⟩
    · rintro ⟨t2, ht⟩
      injection ht with h1 ht2
      injection ht2 with h2 _
      rw [h1, h2]
      rfl

lemma full_house_take_iff (h : Hand) (hne : h.cards ≠ []) :
    h.vals.take 2 = [3, 2] ↔ fullHouseSpec h := by
  have hD : h.values.dedup.Nodup := List.nodup_dedup _
  unfold fullHouseSpec
  constructor
  · intro ht
    obtain ⟨t, hvals⟩ := (take_two_iff h.vals 3 2).mp ht
    have hsor := vals_sorted h
    rw [hvals] at hsor
    obtain ⟨hub1, hsor2⟩ := List.sorted_cons.mp hsor
    obtain ⟨hub2, _⟩ := List.sorted_cons.mp hsor2
    have h3mem : (3 : Nat) ∈ h.vals := by
      rw [hvals]
      exact List.mem_cons_self _ _
    have h2mem : (2 : Nat) ∈ h.vals := by
      rw [hvals]
      exact List.mem_cons_of_mem _ (List.mem_cons_self _ _)
    obtain ⟨v, hvD, hv3⟩ := (mem_vals_iff h 3).mp h3mem
    obtain ⟨w, hwD, hw2⟩ := (mem_vals_iff h 2).mp h2mem
    refine ⟨v, hv3, ?_, w, hw2⟩
    intro u hu
    by_contra hcon
    push_neg at hcon
    have huD : u ∈ h.values.dedup := (count_mem_dedup h u).mpr (by omega)
    have humem : h.countVal u ∈ h.vals := (mem_vals_iff h _).mpr ⟨u, huD, rfl⟩
    have hle3 : h.countVal u ≤ 3 := by
      have := sorted_desc_le_headI h.vals (vals_sorted h) humem
      rw [hvals] at this
      exact this
    have hu3 : h.countVal u = 3 := by omega
    have hcnt2 : 2 ≤ (h.values.dedup.map h.countVal).count 3 :=
      two_count_of_pair huD hvD hu hu3 hv3
    have hcnt' := vals_count h 3
    rw [hvals, List.count_cons_self,
      List.count_cons_of_ne (by omega : (3 : Nat) ≠ 2)] at hcnt'
    have h3nt : (3 : Nat) ∉ t := by
      intro hmem
      have := hub2 _ hmem
      omega
    rw [List.count_eq_zero.mpr h3nt] at hcnt'
    omega
  · rintro ⟨v, hv3, hmax, w, hw2⟩
    have hvD : v ∈ h.values.dedup := (count_mem_dedup h v).mpr (by omega)
    have hwD : w ∈ h.values.dedup := (count_mem_dedup h w).mpr (by omega)
    have h3mem : (3 : Nat) ∈ h.vals := (mem_vals_iff h 3).mpr ⟨v, hvD, hv3⟩
    have h2mem : (2 : Nat) ∈ h.vals := (mem_vals_iff h 2).mpr ⟨w, hwD, hw2⟩
    have hub : ∀ n, n ∈ h.vals → n ≤ 3 := by
      intro n hn
      obtain ⟨u, huD, hcu⟩ := (mem_vals_iff h n).mp hn
      by_cases huv : u = v
      · rw [huv] at hcu
        omega
      · have := hmax u huv
        omega
    have hvne := vals_ne_nil h hne
    have hcnt1 : h.vals.count 3 = 1 := by
      rw [vals_count h 3]
      exact count_one_of_unique hD hvD hv3 (fun u _ hune hcu => by
        have := hmax u hune
        omega)
    rcases hvv : h.vals with _ | ⟨a, t1⟩
    · exact absurd hvv hvne
    have ha3 : a = 3 := by
      have hle : 3 ≤ a := by
        have := sorted_desc_le_headI h.vals (vals_sorted h) h3mem
        rw [hvv] at this
        exact this
      have hge : a ≤ 3 := hub a (by rw [hvv]; exact List.mem_cons_self _ _)
      omega
    rw [hvv, ha3, List.count_cons_self] at hcnt1
    have h3nt1 : (3 : Nat) ∉ t1 := by
      have h0 : t1.count 3 = 0 := by omega
      exact List.count_eq_zero.mp h0
    have h2t1 : (2 : Nat) ∈ t1 := by
      have hmem := h2mem
      rw [hvv] at hmem
      rcases List.mem_cons.mp hmem with he | hmem2
      · omega
      · exact hmem2
    rcases ht1 : t1 with _ | ⟨b, t2⟩
    · rw [ht1] at h2t1
      simp at h2t1
    have hsor := vals_sorted h
    rw [hvv, ht1] at hsor
    obtain ⟨_, hsor1⟩ := List.sorted_cons.mp hsor
    have hb : b = 2 := by
      have hble : 2 ≤ b := by
        have h2bt : (2 : Nat) ∈ b :: t2 := by
          rw [← ht1]
          exact h2t1
        exact sorted_desc_le_headI (b :: t2) hsor1 h2bt
      have hbub : b ≤ 3 := hub b (by
        rw [hvv, ht1]
        exact List.mem_cons_of_mem _ (List.mem_cons_self _ _))
      have hbne : b ≠ 3 := by
        intro e
        rw [ht1] at h3nt1
        exact h3nt1 (by rw [← e]; exact List.mem_cons_self _ _)
      omega
    rw [ha3, hb]
    rfl

lemma two_pair_take_iff (h : Hand) (hne : h.cards ≠ []) :
    h.vals.take 2 = [2, 2] ↔ twoPairSpec h := by
  have hD : h.values.dedup.Nodup := List.nodup_dedup _
  unfold twoPairSpec
  constructor
  · intro ht
    obtain ⟨t, hvals⟩ := (take_two_iff h.vals 2 2).mp ht
    have hub : ∀ u, h.countVal u ≤ 2 := by
      intro u
      by_cases hu0 : h.countVal u = 0
      · omega
      · have huD := (count_mem_dedup h u).mpr hu0
        have humem : h.countVal u ∈ h.vals := (mem_vals_iff h _).mpr ⟨u, huD, rfl⟩
        have := sorted_desc_le_headI h.vals (vals_sorted h) humem
        rw [hvals] at this
        exact this
    have hcnt : 2 ≤ h.vals.count 2 := by
      rw [hvals, List.count_cons_self, List.count_cons_self]
      omega
    rw [vals_count h 2] at hcnt
    obtain ⟨u, huD, v, hvD, huv, hcu, hcv⟩ := pair_of_two_count hD hcnt
    exact ⟨⟨u, v, huv, hcu, hcv⟩, hub⟩
  · rintro ⟨⟨v, w, hvw, hv2, hw2⟩, hub⟩
    have hvD : v ∈ h.values.dedup := (count_mem_dedup h v).mpr (by omega)
    have hwD : w ∈ h.values.dedup := (count_mem_dedup h w).mpr (by omega)
    have h2mem : (2 : Nat) ∈ h.vals := (mem_vals_iff h 2).mpr ⟨v, hvD, hv2⟩
    have hvne := vals_ne_nil h hne
    have hentry : ∀ n, n ∈ h.vals → n ≤ 2 := by
      intro n hn
      obtain ⟨u, huD, hcu⟩ := (mem_vals_iff h n).mp hn
      have := hub u
      omega
    have hcnt2 : 2 ≤ h.vals.count 2 := by
      rw [vals_count h 2]
      exact two_count_of_pair hvD hwD hvw hv2 hw2
    rcases hvv : h.vals with _ | ⟨a, t1⟩
    · exact absurd hvv hvne
    have ha2 : a = 2 := by
      have h1 : 2 ≤ a := by
        have := sorted_desc_le_headI h.vals (vals_sorted h) h2mem
        rw [hvv] at this
        exact this
      have h2' : a ≤ 2 := hentry a (by rw [hvv]; exact List.mem_cons_self _ _)
      omega
    have h2t1 : (2 : Nat) ∈ t1 := by
      rw [hvv, ha2, List.count_cons_self] at hcnt2
      exact List.count_pos_iff.mp (by omega)
    rcases ht1 : t1 with _ | ⟨b, t2⟩
    · rw [ht1] at h2t1
      simp at h2t1
    have hsor := vals_sorted h
    rw [hvv, ht1] at hsor
    obtain ⟨_, hsor1⟩ := List.sorted_cons.mp hsor
    have hb : b = 2 := by
      have h1 : 2 ≤ b := by
        have h2bt : (2 : Nat) ∈ b :: t2 := by
          rw [← ht1]
          exact h2t1
        exact sorted_desc_le_headI (b :: t2) hsor1 h2bt
      have h2' : b ≤ 2 := hentry b (by
        rw [hvv, ht1]
        exact List.mem_cons_of_mem _ (List.mem_cons_self _ _))
      omega
    rw [ha2, hb]
    rfl

/-- C6: for every non-empty hand, with the value-groups read off the
multiset of per-value multiplicities: four-of-a-kind iff the largest group
is exactly 4; full house iff the two largest groups are exactly [3, 2]
(one triple, no other group above a pair, and some pair); three-of-a-kind
iff the largest group is exactly 3; two pair iff the two largest groups
are exactly [2, 2]; pair iff the largest group is exactly 2. These checks
are size-exact on the two largest groups for hands of any size. -/
theorem group_checks_spec (h : Hand) (hne : h.cards ≠ []) :
    (h.is_four_of_a_kind = true ↔ maxGroupSpec h 4) ∧
    (h.is_full_house = true ↔ fullHouseSpec h) ∧
    (h.is_three_of_a_kind = true ↔ maxGroupSpec h 3) ∧
    (h.is_two_pair = true ↔ twoPairSpec h) ∧
    (h.is_one_pair = true ↔ maxGroupSpec h 2) := by
  refine ⟨?_, ?_, ?_, ?_, ?_⟩
  · unfold Hand.is_four_of_a_kind
    rw [beq_iff_eq]
    exact vals_headI_iff h hne 4 (by omega)
  · unfold Hand.is_full_house
    rw [beq_iff_eq]
    exact full_house_take_iff h hne
  · unfold Hand.is_three_of_a_kind
    rw [beq_iff_eq]
    exact vals_headI_iff h hne 3 (by omega)
  · unfold Hand.is_two_pair
    rw [beq_iff_eq]
    exact two_pair_take_iff h hne
  · unfold Hand.is_one_pair
    rw [beq_iff_eq]
    exact vals_headI_iff h hne 2 (by omega)

/-- Witness for C6 at the seven-card hand 3S, 3C, 3D, 7H, 7S, 9H, 9S
(group shape [3, 2, 2]): the size-exact take-two check still reports a
full house. -/
theorem group_checks_spec_witness :
    (Hand.ofCards [⟨.three, .spades⟩, ⟨.three, .clubs⟩, ⟨.three, .diamonds⟩,
        ⟨.seven, .hearts⟩, ⟨.seven, .spades⟩, ⟨.nine, .hearts⟩,
        ⟨.nine, .spades⟩]).is_full_house = true ↔
      fullHouseSpec (Hand.ofCards [⟨.three, .spades⟩, ⟨.three, .clubs⟩,
        ⟨.three, .diamonds⟩, ⟨.seven, .hearts⟩, ⟨.seven, .spades⟩,
        ⟨.nine, .hearts⟩, ⟨.nine, .spades⟩]) :=
  (group_checks_spec (Hand.ofCards [⟨.three, .spades⟩, ⟨.three, .clubs⟩,
    ⟨.three, .diamonds⟩, ⟨.seven, .hearts⟩, ⟨.seven, .spades⟩,
    ⟨.nine, .hearts⟩, ⟨.nine, .spades⟩]) (by decide)).2.1

end Gamble
